import Mathlib

/-!
Formal model of the conversation viewer (`conv_viewer.py`).

The viewer renders a stored multi-turn agent/tool conversation into a
labelled, wrapped, indented transcript.  Python strings are modelled as
`List Char` (`Str`), so all length/slicing arithmetic is over unicode
code points exactly as in CPython.  `json.loads` is a Python standard
library call, external to the repository; it is modelled as an abstract
parameter `jl : JLoads` (respectively, as an explicit `Option JVal`
parse result handed to `compactArgs`), so every theorem below holds for
every possible parser behaviour.  `textwrap.fill` is likewise external;
it is modelled by a greedy word-wrapper (`fillLine`); no theorem below
depends on the exact line-breaking choices, only on the surrounding
viewer logic, which is translated line by line from the source.
-/

abbrev Str := List Char

/-- Converts a Lean string literal into the `List Char` representation. -/
def cs (s : String) : Str := s.toList

/-- Python truthiness of an optional string: `None` and `""` are falsy. -/
def truthy : Option Str → Bool
  | none => false
  | some s => !s.isEmpty

/-- Whitespace characters recognised by Python's `str.strip` (ASCII part). -/
def pyws (c : Char) : Bool :=
  c == ' ' || c == '\t' || c == '\n' || c == '\r' || c == Char.ofNat 11 || c == Char.ofNat 12

/-- Model of Python `str.strip()`: drop whitespace from both ends. -/
def stripChars (s : Str) : Str :=
  ((s.dropWhile pyws).reverse.dropWhile pyws).reverse

/-- Splits a string at every newline; a terminal segment is always produced,
so `join` with a newline is a strict inverse. -/
def splitOnNL : Str → List Str
  | [] => [[]]
  | c :: rest =>
    if c = '\n' then [] :: splitOnNL rest
    else
      match splitOnNL rest with
      | [] => [[c]]
      | h :: t => (c :: h) :: t

/-- Joins string pieces with a separator (model of Python `sep.join`). -/
def joinSep (sep : Str) : List Str → Str
  | [] => []
  | [x] => x
  | x :: xs => x ++ sep ++ joinSep sep xs

/-- Model of Python `str.splitlines()` restricted to the newline character:
a trailing newline does not produce a final empty line. -/
def splitLines (s : Str) : List Str :=
  if s.isEmpty then []
  else if s.getLast? = some '\n' then (splitOnNL s).dropLast
  else splitOnNL s

/-- Model of `textwrap.indent(text, "  ")`: the two-space margin is added to
every line that contains a non-whitespace character. -/
def indentTwo (s : Str) : Str :=
  joinSep (cs "\n")
    ((splitLines s).map (fun line => if (stripChars line).isEmpty then line else ' ' :: ' ' :: line))

/-- Accumulator-style splitting of a string into whitespace-separated words. -/
def wordsAux : Str → Str → List Str
  | [], cur => if cur.isEmpty then [] else [cur.reverse]
  | c :: rest, cur =>
    if pyws c then
      (if cur.isEmpty then wordsAux rest [] else cur.reverse :: wordsAux rest [])
    else wordsAux rest (c :: cur)

/-- Splits a line into its whitespace-separated words. -/
def splitWords (s : Str) : List Str := wordsAux s []

/-- Greedy packing of words into lines of at most `width` characters. -/
def fillAux (width : Nat) : Str → List Str → Str
  | cur, [] => cur
  | cur, w :: ws =>
    if cur.length + 1 + w.length ≤ width then fillAux width (cur ++ ' ' :: w) ws
    else cur ++ '\n' :: fillAux width w ws

/-- Model of `textwrap.fill(line, width)`: greedy word wrap of one line. -/
def fillLine (width : Nat) (line : Str) : Str :=
  match splitWords line with
  | [] => []
  | w :: ws => fillAux width w ws

/-- Detects the line markers that `_wrap` passes through unmodified:
code fences, blockquotes and list bullets. -/
def rawMarker (st : Str) : Bool :=
  (cs "```").isPrefixOf st || (cs "> ").isPrefixOf st ||
  (cs "- ").isPrefixOf st || (cs "* ").isPrefixOf st

/-- Model of `_wrap`: non-positive width disables wrapping; marker lines pass
through; all other lines are filled to the width; lines are rejoined. -/
def wrapText (width : Int) (text : Str) : Str :=
  if width ≤ 0 then text
  else
    joinSep (cs "\n")
      ((splitLines text).map
        (fun line => if rawMarker (stripChars line) then line else fillLine width.toNat line))

/-- Model of the `ANSI` escape table of the viewer. -/
def ansiOf (code : String) : Str :=
  if code = "reset" then cs "\x1b[0m"
  else if code = "dim" then cs "\x1b[2m"
  else if code = "bold" then cs "\x1b[1m"
  else if code = "user" then cs "\x1b[92m"
  else if code = "assistant" then cs "\x1b[96m"
  else if code = "tool" then cs "\x1b[95m"
  else if code = "meta" then cs "\x1b[90m"
  else if code = "error" then cs "\x1b[91m"
  else []

/-- Model of `_color`: wrap the text in the escape pair when enabled. -/
def pcolor (text : Str) (code : String) (enable : Bool) : Str :=
  if enable then ansiOf code ++ text ++ ansiOf "reset" else text

/-- JSON values as produced by `json.loads` (integers model Python ints;
floating-point literals are outside this model and unused by the claims). -/
inductive JVal where
  | null : JVal
  | bool (b : Bool) : JVal
  | num (n : Int) : JVal
  | str (s : Str) : JVal
  | arr (xs : List JVal) : JVal
  | obj (kvs : List (Str × JVal)) : JVal

/-- Hexadecimal digit character for JSON control-character escapes. -/
def hexDig (n : Nat) : Char :=
  if n < 10 then Char.ofNat (48 + n) else Char.ofNat (87 + n)

/-- JSON escaping of one character, as in `json.dumps` with
`ensure_ascii=False` (non-ASCII characters pass through). -/
def escChar (c : Char) : Str :=
  if c = '"' then ['\\', '"']
  else if c = '\\' then ['\\', '\\']
  else if c = '\n' then ['\\', 'n']
  else if c = '\t' then ['\\', 't']
  else if c = '\r' then ['\\', 'r']
  else if c = Char.ofNat 8 then ['\\', 'b']
  else if c = Char.ofNat 12 then ['\\', 'f']
  else if c.toNat < 32 then ['\\', 'u', '0', '0', hexDig (c.toNat / 16), hexDig (c.toNat % 16)]
  else [c]

/-- JSON escaping of a whole string body. -/
def escStr (s : Str) : Str := s.foldr (fun c acc => escChar c ++ acc) []

mutual

/-- Model of `json.dumps(v, ensure_ascii=False)` with the default
separators `", "` and `": "`, exactly as called by `_compact_args`. -/
def jdumps : JVal → Str
  | JVal.null => cs "null"
  | JVal.bool true => cs "true"
  | JVal.bool false => cs "false"
  | JVal.num n => cs (toString n)
  | JVal.str s => '"' :: (escStr s ++ ['"'])
  | JVal.arr xs => '[' :: (joinSep (cs ", ") (jdumpsArr xs) ++ [']'])
  | JVal.obj kvs => '{' :: (joinSep (cs ", ") (jdumpsObj kvs) ++ ['}'])

/-- Encodings of the elements of a JSON array, in order. -/
def jdumpsArr : List JVal → List Str
  | [] => []
  | x :: xs => jdumps x :: jdumpsArr xs

/-- Encodings of the `"key": value` members of a JSON object, in order. -/
def jdumpsObj : List (Str × JVal) → List Str
  | [] => []
  | (k, v) :: kvs => ('"' :: (escStr k ++ '"' :: ':' :: ' ' :: jdumps v)) :: jdumpsObj kvs

end

/-- Model of `arg_str.replace("\n", " ")`. -/
def collapseNL (s : Str) : Str := s.map (fun c => if c = '\n' then ' ' else c)

/-- Overall length cap of `_compact_args`: strings no longer than `maxLen`
pass unchanged, longer ones keep `maxLen - 1` characters plus an ellipsis. -/
def capLen (maxLen : Nat) (s : Str) : Str :=
  if s.length ≤ maxLen then s else s.take (maxLen - 1) ++ ['…']

/-- Model of the inner `trunc` of `_compact_args`: re-encode one JSON value
and cap it at 80 characters (79 plus an ellipsis when over). -/
def trunc (v : JVal) : Str :=
  if (jdumps v).length ≤ 80 then jdumps v else (jdumps v).take 79 ++ ['…']

/-- Compaction of a successfully parsed argument value: mappings become
`key=value` pairs joined by `", "`, anything else its truncated encoding;
the joined result is capped again at `maxLen`. -/
def compactParsed (maxLen : Nat) (args : JVal) : Str :=
  match args with
  | JVal.obj kvs => capLen maxLen (joinSep (cs ", ") (kvs.map (fun kv => kv.1 ++ ('=' :: trunc kv.2))))
  | v => capLen maxLen (trunc v)

/-- Model of `_compact_args(arg_str, max_len)`.  The second argument is the
result of the external `json.loads(arg_str)` call: `none` models a parse
failure (the `except` branch), `some j` a successful parse. -/
def compactArgs (maxLen : Nat) (argStr : Str) (parsed : Option JVal) : Str :=
  if argStr.isEmpty then []
  else
    match parsed with
    | none => capLen maxLen (collapseNL argStr)
    | some j => compactParsed maxLen j

/-- Abstract model of `json.loads`: any function from raw argument strings
to an optional parsed value. -/
abbrev JLoads := Str → Option JVal

/-- Parser model that fails on every input, used to instantiate witnesses. -/
def noLoads : JLoads := fun _ => none

/-- Function descriptor nested inside a tool call (`function` key). -/
structure FuncDesc where
  name : Option Str
  arguments : Option Str
deriving DecidableEq

/-- One tool call of an assistant turn; either identifier key is tolerated. -/
structure ToolCall where
  id : Option Str
  tool_call_id : Option Str
  function : Option FuncDesc
deriving DecidableEq

/-- One turn of a trajectory: a mapping with optional fields, exactly the
keys the viewer reads (`role`, `content`, `name`, `tool_call_id`,
`tool_calls`).  An absent key is `none`. -/
structure Turn where
  role : Option Str
  content : Option Str
  name : Option Str
  tool_call_id : Option Str
  tool_calls : Option (List ToolCall)
deriving DecidableEq

/-- One conversation record.  `instruction` models the best-effort
extraction of `match["info"]["task"]["instruction"]`: `none` stands for
any structural absence along that nested path. -/
structure Record where
  task_id : Option Int
  trial : Option Int
  traj : Option (List Turn)
  instruction : Option Str
deriving DecidableEq

/-- One entry of the top-level result list: a mapping (record) or any
non-mapping value, which the locator skips. -/
inductive Entry where
  | record (r : Record) : Entry
  | nonMapping : Entry
deriving DecidableEq

def assistantStr : Str := cs "assistant"
def userStr : Str := cs "user"
def toolStr : Str := cs "tool"
def systemStr : Str := cs "system"

/-- Matching test of the record locator loop:
`isinstance(entry, dict) and entry.get("task_id") == task_id and entry.get("trial") == trial`. -/
def entryMatches (tid trial : Int) : Entry → Bool
  | Entry.record r => decide (r.task_id = some tid) && decide (r.trial = some trial)
  | Entry.nonMapping => false

/-- Model of the locator loop of `print_conversation`: first matching
record, scanning in collection order. -/
def findRecord (tid trial : Int) : List Entry → Option Record
  | [] => none
  | e :: es =>
    match e with
    | Entry.record r =>
      if r.task_id = some tid ∧ r.trial = some trial then some r else findRecord tid trial es
    | Entry.nonMapping => findRecord tid trial es

/-- Empty function descriptor, modelling the `or {}` fallbacks. -/
def emptyFunc : FuncDesc := ⟨none, none⟩

/-- Index entry built from one tool call:
`call_id = tc.get("id") or tc.get("tool_call_id")`; entries lacking a
truthy identifier are skipped (`if call_id:`). -/
def tcEntry (jl : JLoads) (tc : ToolCall) : Option (Str × (Str × Str)) :=
  let func := tc.function.getD emptyFunc
  let fname := func.name.getD []
  let fargs := func.arguments.getD []
  let comp := compactArgs 200 fargs (jl fargs)
  let callId := if truthy tc.id then tc.id else tc.tool_call_id
  if truthy callId then some (callId.getD [], (fname, comp)) else none

/-- Index entries contributed by one turn: only turns whose `role` key is
literally `"assistant"` are scanned. -/
def turnEntries (jl : JLoads) (t : Turn) : List (Str × (Str × Str)) :=
  if t.role = some assistantStr then (t.tool_calls.getD []).filterMap (tcEntry jl) else []

/-- Model of the `id2call` dictionary, kept as the document-ordered list of
inserted bindings (lookup resolves duplicates with last-write-wins). -/
def id2call (jl : JLoads) : List Turn → List (Str × (Str × Str))
  | [] => []
  | t :: ts => turnEntries jl t ++ id2call jl ts

/-- Dictionary lookup over the insertion list: the most recent binding of a
key wins, exactly as in a Python dict built by repeated assignment. -/
def lookupCall (idx : List (Str × (Str × Str))) (k : Str) : Option (Str × Str) :=
  List.lookup k idx.reverse

/-- Role of a turn as classified by the renderer:
`turn.get("role", "assistant")`. -/
def roleOf (t : Turn) : Str := t.role.getD assistantStr

/-- Resolution of `(fname, comp)` for a tool turn:
`if tool_call_id and tool_call_id in id2call: fname, comp = id2call[tool_call_id]`. -/
def toolPair (idx : List (Str × (Str × Str))) (t : Turn) : Str × Str :=
  if truthy t.tool_call_id then (lookupCall idx (t.tool_call_id.getD [])).getD ([], [])
  else ([], [])

/-- Label (role tag) of one rendered turn, lines 148-195 of the source. -/
def turnTag (idx : List (Str × (Str × Str))) (color : Bool) (t : Turn) : Str :=
  let role := roleOf t
  if role = assistantStr then pcolor (cs "[assistant]") "assistant" color
  else if role = userStr then pcolor (cs "[user]") "user" color
  else if role = toolStr then
    let fc := toolPair idx t
    let display := if truthy t.name then t.name.getD [] else fc.1
    if ¬display.isEmpty ∧ ¬fc.2.isEmpty then
      pcolor (cs "[tool:" ++ display ++ ('(' :: fc.2) ++ cs ")]") "tool" color
    else if ¬display.isEmpty then
      pcolor (cs "[tool:" ++ display ++ cs "]") "tool" color
    else pcolor (cs "[tool]") "tool" color
  else if role = systemStr then pcolor (cs "[system]") "meta" color
  else pcolor ('[' :: (role ++ cs "]")) "meta" color

/-- Summary piece `fname(comp)` (or `fname()`) for one tool call of an
assistant turn whose content is null. -/
def callPart (jl : JLoads) (tc : ToolCall) : Str :=
  let func := tc.function.getD emptyFunc
  let fname := func.name.getD (cs "<?>")
  let fargs := func.arguments.getD []
  let comp := compactArgs 200 fargs (jl fargs)
  if ¬comp.isEmpty then fname ++ ('(' :: (comp ++ cs ")")) else fname ++ cs "()"

/-- Body text (`msg`) of one rendered turn, before wrapping. -/
def turnMsg (jl : JLoads) (t : Turn) : Str :=
  let role := roleOf t
  if role = assistantStr then
    match t.content with
    | some c => c
    | none =>
      let tcs := t.tool_calls.getD []
      if ¬tcs.isEmpty then cs "→ tool call(s): " ++ joinSep (cs "; ") (tcs.map (callPart jl))
      else []
  else t.content.getD []

/-- Printed body block of one turn, lines 197-203 of the source: wrapped,
two-space indented, with the dimmed placeholder for blank bodies. -/
def bodyBlock (color : Bool) (width : Int) (msg : Str) : Str :=
  let w := wrapText width msg
  if (stripChars w).isEmpty then indentTwo (pcolor (cs "(no content)") "dim" color)
  else indentTwo w

/-- Output of one rendered turn: exactly one label line (the tag followed by
a trailing space, from `print(f"{role_tag} ")`) and one body block. -/
def renderTurnBlocks (jl : JLoads) (idx : List (Str × (Str × Str))) (width : Int) (color : Bool)
    (t : Turn) : List Str :=
  [turnTag idx color t ++ [' '], bodyBlock color width (turnMsg jl t)]

/-- Model of the start-index loop: index of the first turn whose `role` key
equals `"user"`, carried as an accumulating position. -/
def findUser : List Turn → Nat → Option Nat
  | [], _ => none
  | t :: ts, i => if t.role = some userStr then some i else findUser ts (i + 1)

/-- Start of rendering: the first user turn when one exists, else 0. -/
def startIdx (traj : List Turn) : Nat :=
  match findUser traj 0 with
  | some i => i
  | none => 0

/-- Concatenated blocks of a list of turns, in order. -/
def renderAll (jl : JLoads) (idx : List (Str × (Str × Str))) (width : Int) (color : Bool) :
    List Turn → List Str
  | [] => []
  | t :: ts => renderTurnBlocks jl idx width color t ++ renderAll jl idx width color ts

/-- Turn-rendering section of `print_conversation`: the index is built over
the whole trajectory, then turns are walked from the first user turn. -/
def turnSection (jl : JLoads) (width : Int) (color : Bool) (traj : List Turn) : List Str :=
  renderAll jl (id2call jl traj) width color (traj.drop (startIdx traj))

/-- Decimal rendering of a Python integer. -/
def intStr (n : Int) : Str := cs (toString n)

/-- Error line printed when no record matches. -/
def noRecordMsg (tid trial : Int) : Str :=
  cs "[error] No record found for task_id=" ++ intStr tid ++ cs ", trial=" ++ intStr trial ++ cs "."

/-- Error line printed when the selected record has no (or an empty) `traj`. -/
def noTrajMsg : Str := cs "[error] No \x27traj\x27 found in the selected record."

/-- Title line of the transcript. -/
def headerStr (tid trial : Int) : Str :=
  cs "Conversation — task_id=" ++ intStr tid ++ cs ", trial=" ++ intStr trial

/-- Model of `print_conversation` from the point where the decoded top-level
list is in hand (file loading and JSON decoding are external I/O).  The
result is the list of payloads of the successive `print` calls. -/
def printConversation (jl : JLoads) (entries : List Entry) (tid trial : Int)
    (width : Int) (color : Bool) : List Str :=
  match findRecord tid trial entries with
  | none => [pcolor (noRecordMsg tid trial) "error" color]
  | some m =>
    let traj := m.traj.getD []
    if traj.isEmpty then [pcolor noTrajMsg "error" color]
    else
      let header := headerStr tid trial
      let rule := List.replicate header.length '─'
      [pcolor header "bold" color, pcolor rule "meta" color]
      ++ (match m.instruction with
          | some instr =>
            if ¬instr.isEmpty then
              [pcolor (cs "[instruction]") "bold" color,
               indentTwo (wrapText width instr),
               pcolor rule "meta" color]
            else []
          | none => [])
      ++ turnSection jl width color traj

/-- Splits a string on every (leftmost, non-overlapping) occurrence of the
separator `", "`, as Python `s.split(", ")` does. -/
def splitCS : Str → List Str
  | [] => [[]]
  | [c] => [[c]]
  | c :: d :: rest =>
    if c = ',' ∧ d = ' ' then [] :: splitCS rest
    else
      match splitCS (d :: rest) with
      | [] => [[c]]
      | h :: t => (c :: h) :: t

/-- Tests whether a string contains an occurrence of the separator `", "`. -/
def hasCS : Str → Bool
  | [] => false
  | [_] => false
  | c :: d :: rest => (c == ',' && d == ' ') || hasCS (d :: rest)

/-- Tests whether a string contains the character `=`. -/
def hasEq (s : Str) : Bool := s.any (fun c => c == '=')

/-- Re-parse of a compacted mapping, as described by the round-trip claim:
split the output into `key=value` segments at the `", "` joiner and read
each key as the text before the first `=` (per-value truncation markers sit
inside the value part and are thereby ignored). -/
def reParseKeys (s : Str) : List Str :=
  (splitCS s).map (fun seg => seg.takeWhile (fun c => c != '='))

/-- Modelled from the spec: the tool-turn label resolution order as the
specification (and claim C1) words it — the name comes from the CallIndex
lookup by `tool_call_id`, falling back to the turn's own `name` field only
when no CallIndex match exists, with the bare `[tool]` marker when neither
is available. -/
def claimedToolLabel (idx : List (Str × (Str × Str))) (t : Turn) : Str :=
  let fromIdx := if truthy t.tool_call_id then lookupCall idx (t.tool_call_id.getD []) else none
  let nm := match fromIdx with
    | some fc => fc.1
    | none => t.name.getD []
  let comp := match fromIdx with
    | some fc => fc.2
    | none => []
  if ¬nm.isEmpty ∧ ¬comp.isEmpty then cs "[tool:" ++ nm ++ ('(' :: comp) ++ cs ")]"
  else if ¬nm.isEmpty then cs "[tool:" ++ nm ++ cs "]"
  else cs "[tool]"

lemma capLen_length_le (m : Nat) (hm : 1 ≤ m) (s : Str) : (capLen m s).length ≤ m := by
  unfold capLen
  split
  · omega
  · simp only [List.length_append, List.length_take, List.length_cons, List.length_nil]
    omega

/-- Claim C6: argument compaction never raises on malformed input — a
string whose JSON parse fails is returned with newlines collapsed to
spaces and capped at the max length, never an error; in particular the
scenario string `{not json` (length 9) comes back verbatim, and the output
never exceeds the max length. -/
theorem compact_malformed_graceful :
    (∀ s : Str, compactArgs 200 s none = if s.isEmpty then [] else capLen 200 (collapseNL s)) ∧
    (∀ s : Str, (compactArgs 200 s none).length ≤ 200) ∧
    compactArgs 200 (cs "\x7bnot json") none = cs "\x7bnot json" := by
  refine ⟨fun s => rfl, fun s => ?_, by decide⟩
  show (if s.isEmpty then ([] : Str) else capLen 200 (collapseNL s)).length ≤ 200
  split
  · simp
  · exact capLen_length_le 200 (by omega) _

/-- Claim C5: both truncation boundaries are exact.  A non-parsable string
of length 200 is returned untruncated (newline collapse aside), one of
length 201 is cut to 199 characters plus the ellipsis; a value whose JSON
encoding has exactly 80 characters is rendered whole inside a mapping,
an 81-character encoding is cut to 79 characters plus the ellipsis. -/
theorem compaction_boundaries (s t k : Str) (v w : JVal)
    (hs : s.length = 200) (ht : t.length = 201) (hk : k.length ≤ 119)
    (hv : (jdumps v).length = 80) (hw : (jdumps w).length = 81) :
    compactArgs 200 s none = collapseNL s ∧
    compactArgs 200 t none = (collapseNL t).take 199 ++ ['…'] ∧
    (compactArgs 200 t none).getLast? = some '…' ∧
    trunc v = jdumps v ∧
    trunc w = (jdumps w).take 79 ++ ['…'] ∧
    (trunc w).getLast? = some '…' ∧
    compactParsed 200 (JVal.obj [(k, v)]) = k ++ ('=' :: jdumps v) ∧
    compactParsed 200 (JVal.obj [(k, w)]) = k ++ ('=' :: ((jdumps w).take 79 ++ ['…'])) := by
  have hs0 : s.isEmpty = false := by
    cases s with
    | nil => simp at hs
    | cons a l => rfl
  have ht0 : t.isEmpty = false := by
    cases t with
    | nil => simp at ht
    | cons a l => rfl
  have hcs : (collapseNL s).length = 200 := by simp [collapseNL, hs]
  have hct : (collapseNL t).length = 201 := by simp [collapseNL, ht]
  have c1 : compactArgs 200 s none = collapseNL s := by
    simp [compactArgs, hs0, capLen, hcs]
  have c2 : compactArgs 200 t none = (collapseNL t).take 199 ++ ['…'] := by
    simp [compactArgs, ht0, capLen, hct]
  have c4 : trunc v = jdumps v := by simp [trunc, hv]
  have c5 : trunc w = (jdumps w).take 79 ++ ['…'] := by simp [trunc, hw]
  have c7 : compactParsed 200 (JVal.obj [(k, v)]) = k ++ ('=' :: jdumps v) := by
    have hj : ([(k, v)].map (fun kv : Str × JVal => kv.1 ++ ('=' :: trunc kv.2))) =
        [k ++ ('=' :: trunc v)] := by simp
    have hlen1 : (k ++ ('=' :: trunc v)).length ≤ 200 := by
      simp [List.length_append, c4, hv]
      omega
    simp only [compactParsed, hj, joinSep, capLen]
    rw [if_pos hlen1, c4]
  have c8 : compactParsed 200 (JVal.obj [(k, w)]) = k ++ ('=' :: ((jdumps w).take 79 ++ ['…'])) := by
    have hj : ([(k, w)].map (fun kv : Str × JVal => kv.1 ++ ('=' :: trunc kv.2))) =
        [k ++ ('=' :: trunc w)] := by simp
    have hlen1 : (k ++ ('=' :: trunc w)).length ≤ 200 := by
      simp [List.length_append, c5, List.length_take, hw]
      omega
    simp only [compactParsed, hj, joinSep, capLen]
    rw [if_pos hlen1, c5]
  refine ⟨c1, c2, ?_, c4, c5, ?_, c7, c8⟩
  · rw [c2, List.getLast?_concat]
  · rw [c5, List.getLast?_concat]

set_option maxRecDepth 8000 in
/-- Witness for claim C5 at concrete inputs: 200 and 201 copies of `x`, and
string values of 78 and 79 copies of `a` (JSON encodings of 80 and 81
characters). -/
theorem compaction_boundaries_witness :
    compactArgs 200 (List.replicate 200 'x') none = collapseNL (List.replicate 200 'x') ∧
    (compactArgs 200 (List.replicate 201 'x') none).getLast? = some '…' ∧
    trunc (JVal.str (List.replicate 78 'a')) = jdumps (JVal.str (List.replicate 78 'a')) ∧
    (trunc (JVal.str (List.replicate 79 'a'))).getLast? = some '…' ∧
    compactParsed 200 (JVal.obj [(cs "k", JVal.str (List.replicate 78 'a'))]) =
      cs "k" ++ ('=' :: jdumps (JVal.str (List.replicate 78 'a'))) := by
  have h := compaction_boundaries (List.replicate 200 'x') (List.replicate 201 'x') (cs "k")
    (JVal.str (List.replicate 78 'a')) (JVal.str (List.replicate 79 'a'))
    (by decide) (by decide) (by decide) (by decide) (by decide)
  exact ⟨h.1, h.2.2.1, h.2.2.2.1, h.2.2.2.2.2.1, h.2.2.2.2.2.2.1⟩

lemma findRecord_none_of_no_match (tid trial : Int) (entries : List Entry)
    (h : ∀ e ∈ entries, entryMatches tid trial e = false) :
    findRecord tid trial entries = none := by
  induction entries with
  | nil => rfl
  | cons e es ih =>
    have htail : ∀ x ∈ es, entryMatches tid trial x = false := fun x hx => h x (by simp [hx])
    cases e with
    | record r =>
      have hm := h (Entry.record r) (by simp)
      have hm' : ¬(r.task_id = some tid ∧ r.trial = some trial) := by
        intro hab
        simp [entryMatches, hab.1, hab.2] at hm
      simp [findRecord, hm', ih htail]
    | nonMapping => simp [findRecord, ih htail]

/-- Claim C7: when no record in the collection matches the targets, the
render emits exactly the single `NotFoundError` line — no header, no
instruction, no turn output — and returns. -/
theorem missing_record_error (jl : JLoads) (entries : List Entry) (tid trial : Int)
    (width : Int) (color : Bool)
    (h : ∀ e ∈ entries, entryMatches tid trial e = false) :
    printConversation jl entries tid trial width color =
      [pcolor (noRecordMsg tid trial) "error" color] := by
  unfold printConversation
  rw [findRecord_none_of_no_match tid trial entries h]

/-- Witness for claim C7: a collection holding a non-mapping entry and one
record with a different `task_id` yields only the error line. -/
theorem missing_record_error_witness :
    printConversation noLoads [Entry.nonMapping, Entry.record ⟨some 2, some 0, none, none⟩]
      1 0 100 false = [noRecordMsg 1 0] := by
  have h := missing_record_error noLoads
    [Entry.nonMapping, Entry.record ⟨some 2, some 0, none, none⟩] 1 0 100 false (by decide)
  simpa [pcolor] using h

/-- Claim C8: the record locator returns the first record (in collection
order) whose `task_id` and `trial` equal the targets; non-mapping entries
and non-matching records before it are skipped without error, and later
duplicates are never reached. -/
theorem locator_first_match (tid trial : Int) (pre : List Entry) (r : Record) (post : List Entry)
    (hpre : ∀ e ∈ pre, entryMatches tid trial e = false)
    (h1 : r.task_id = some tid) (h2 : r.trial = some trial) :
    findRecord tid trial (pre ++ Entry.record r :: post) = some r := by
  induction pre with
  | nil => simp [findRecord, h1, h2]
  | cons e es ih =>
    have htail : ∀ x ∈ es, entryMatches tid trial x = false := fun x hx => hpre x (by simp [hx])
    cases e with
    | record q =>
      have hm := hpre (Entry.record q) (by simp)
      have hm' : ¬(q.task_id = some tid ∧ q.trial = some trial) := by
        intro hab
        simp [entryMatches, hab.1, hab.2] at hm
      simp [findRecord, hm', ih htail]
    | nonMapping => simp [findRecord, ih htail]

/-- Witness for claim C8: with a non-mapping entry and a non-matching
record in front and a second matching record behind, the first matching
record is the one returned. -/
theorem locator_first_match_witness :
    findRecord 1 0
      [Entry.nonMapping, Entry.record ⟨some 2, some 0, none, none⟩,
       Entry.record ⟨some 1, some 0, none, some (cs "first")⟩,
       Entry.record ⟨some 1, some 0, none, some (cs "second")⟩] =
      some ⟨some 1, some 0, none, some (cs "first")⟩ :=
  locator_first_match 1 0 [Entry.nonMapping, Entry.record ⟨some 2, some 0, none, none⟩]
    ⟨some 1, some 0, none, some (cs "first")⟩
    [Entry.record ⟨some 1, some 0, none, some (cs "second")⟩]
    (by decide) rfl rfl

/-- Claim C10: a turn whose mapping has no `role` key is classified and
formatted as an assistant turn — its label is `[assistant]` and its whole
rendered output (including the tool-call synthesis for null content)
coincides with that of the same turn carrying an explicit assistant role. -/
theorem missing_role_assistant (jl : JLoads) (idx : List (Str × (Str × Str))) (width : Int)
    (color : Bool) (t : Turn) (h : t.role = none) :
    turnTag idx color t = pcolor (cs "[assistant]") "assistant" color ∧
    renderTurnBlocks jl idx width color t =
      renderTurnBlocks jl idx width color
        ⟨some assistantStr, t.content, t.name, t.tool_call_id, t.tool_calls⟩ := by
  have hrole : roleOf t = assistantStr := by simp [roleOf, h]
  constructor
  · simp [turnTag, hrole]
  · simp [renderTurnBlocks, turnTag, turnMsg, roleOf, h]

/-- Witness for claim C10: a role-less turn with one tool call and null
content renders exactly like the explicit assistant version. -/
theorem missing_role_assistant_witness :
    turnTag [] false ⟨none, none, none, none,
      some [⟨some (cs "c9"), none, some ⟨some (cs "ping"), none⟩⟩]⟩ = cs "[assistant]" ∧
    renderTurnBlocks noLoads [] 100 false
        ⟨none, none, none, none, some [⟨some (cs "c9"), none, some ⟨some (cs "ping"), none⟩⟩]⟩ =
      renderTurnBlocks noLoads [] 100 false
        ⟨some assistantStr, none, none, none,
         some [⟨some (cs "c9"), none, some ⟨some (cs "ping"), none⟩⟩]⟩ := by
  have h := missing_role_assistant noLoads [] 100 false
    ⟨none, none, none, none, some [⟨some (cs "c9"), none, some ⟨some (cs "ping"), none⟩⟩]⟩ rfl
  exact ⟨h.1, h.2⟩

/-- Tool turn whose own `name` field (`alpha`) disagrees with the function
name the CallIndex resolves for its `tool_call_id` (`beta`). -/
def c1Turn : Turn := ⟨some toolStr, some (cs "result"), some (cs "alpha"), some (cs "c1"), none⟩

/-- CallIndex binding `c1` to function name `beta` with empty compacted
arguments. -/
def c1Idx : List (Str × (Str × Str)) := [(cs "c1", (cs "beta", []))]

/-- Claim C1 (counterexample): the claimed resolution order is wrong.  For
a tool turn carrying both its own `name` (`alpha`) and a `tool_call_id`
that the CallIndex resolves to `beta`, the code labels the turn
`[tool:alpha]` — the turn's own name wins — while the claim's order
(CallIndex first, own name only as fallback) would give `[tool:beta]`. -/
theorem tool_label_claim_counterexample :
    turnTag c1Idx false c1Turn = cs "[tool:alpha]" ∧
    claimedToolLabel c1Idx c1Turn = cs "[tool:beta]" ∧
    turnTag c1Idx false c1Turn ≠ claimedToolLabel c1Idx c1Turn := by decide

/-- Claim C1 (amended): for every rendered tool-role turn, the label name
is the turn's own `name` field when that is present and non-empty, and
only otherwise the function name resolved from the CallIndex by
`tool_call_id`; the compacted arguments always come from the CallIndex
lookup; when neither source yields a name the label is the bare `[tool]`
marker, and when a name is found the label is `[tool:NAME(ARGS)]` when the
compacted arguments are non-empty, else `[tool:NAME]`. -/
theorem tool_label_precedence (idx : List (Str × (Str × Str))) (color : Bool) (t : Turn)
    (h : roleOf t = toolStr) :
    turnTag idx color t =
      (let fc := toolPair idx t
       let display := if truthy t.name then t.name.getD [] else fc.1
       if ¬display.isEmpty ∧ ¬fc.2.isEmpty then
         pcolor (cs "[tool:" ++ display ++ ('(' :: fc.2) ++ cs ")]") "tool" color
       else if ¬display.isEmpty then
         pcolor (cs "[tool:" ++ display ++ cs "]") "tool" color
       else pcolor (cs "[tool]") "tool" color) := by
  have e1 : toolStr ≠ assistantStr := by decide
  have e2 : toolStr ≠ userStr := by decide
  simp only [turnTag, h, if_neg e1, if_neg e2, if_true, ite_true]

/-- Witness for the amended claim C1: with its own name absent, the tool
turn falls back to the CallIndex name `beta`, with empty compacted
arguments giving the `[tool:beta]` form. -/
theorem tool_label_precedence_witness :
    turnTag c1Idx false ⟨some toolStr, some (cs "result"), none, some (cs "c1"), none⟩ =
      cs "[tool:beta]" := by
  have h := tool_label_precedence c1Idx false
    ⟨some toolStr, some (cs "result"), none, some (cs "c1"), none⟩ (by decide)
  rw [h]
  decide

lemma renderTurnBlocks_length (jl : JLoads) (idx : List (Str × (Str × Str))) (width : Int)
    (color : Bool) (t : Turn) : (renderTurnBlocks jl idx width color t).length = 2 := rfl

lemma renderAll_length (jl : JLoads) (idx : List (Str × (Str × Str))) (width : Int)
    (color : Bool) (ts : List Turn) :
    (renderAll jl idx width color ts).length = 2 * ts.length := by
  induction ts with
  | nil => rfl
  | cons t ts ih =>
    simp only [renderAll, List.length_append, renderTurnBlocks_length, ih, List.length_cons]
    omega

lemma findUser_append (pre : List Turn) (u : Turn) (rest : List Turn) (n : Nat)
    (hpre : ∀ t ∈ pre, t.role ≠ some userStr) (hu : u.role = some userStr) :
    findUser (pre ++ u :: rest) n = some (n + pre.length) := by
  induction pre generalizing n with
  | nil => simp [findUser, hu]
  | cons p ps ih =>
    have hp := hpre p (by simp)
    have htail : ∀ t ∈ ps, t.role ≠ some userStr := fun t ht => hpre t (by simp [ht])
    simp only [List.cons_append, findUser, if_neg hp, List.append_eq]
    rw [ih (n + 1) htail]
    simp only [List.length_cons]
    congr 1
    omega

lemma startIdx_append (pre : List Turn) (u : Turn) (rest : List Turn)
    (hpre : ∀ t ∈ pre, t.role ≠ some userStr) (hu : u.role = some userStr) :
    startIdx (pre ++ u :: rest) = pre.length := by
  unfold startIdx
  rw [findUser_append pre u rest 0 hpre hu]
  simp

/-- Claim C2: rendering of turn blocks starts at the first user-role turn —
every turn before it contributes no rendered block (though the CallIndex is
still built over the whole trajectory) — and each turn from that point on
produces exactly one label line and one body block, so the turn section has
exactly two printed blocks per rendered turn. -/
theorem render_starts_at_first_user (jl : JLoads) (width : Int) (color : Bool)
    (pre : List Turn) (u : Turn) (rest : List Turn)
    (hpre : ∀ t ∈ pre, t.role ≠ some userStr) (hu : u.role = some userStr) :
    turnSection jl width color (pre ++ u :: rest) =
      renderAll jl (id2call jl (pre ++ u :: rest)) width color (u :: rest) ∧
    (∀ t : Turn, ∀ idx : List (Str × (Str × Str)),
      (renderTurnBlocks jl idx width color t).length = 2) ∧
    (turnSection jl width color (pre ++ u :: rest)).length = 2 * (rest.length + 1) := by
  have hdrop : (pre ++ u :: rest).drop (startIdx (pre ++ u :: rest)) = u :: rest := by
    rw [startIdx_append pre u rest hpre hu]
    exact List.drop_left pre (u :: rest)
  have hsec : turnSection jl width color (pre ++ u :: rest) =
      renderAll jl (id2call jl (pre ++ u :: rest)) width color (u :: rest) := by
    unfold turnSection
    rw [hdrop]
  refine ⟨hsec, fun t idx => rfl, ?_⟩
  rw [hsec, renderAll_length]
  simp

/-- Witness for claim C2: a leading system turn is skipped; the two turns
from the user turn onward yield two blocks. -/
theorem render_starts_at_first_user_witness :
    turnSection noLoads 100 false
        [⟨some systemStr, some (cs "sys"), none, none, none⟩,
         ⟨some userStr, some (cs "hi"), none, none, none⟩] =
      renderAll noLoads
        (id2call noLoads
          [⟨some systemStr, some (cs "sys"), none, none, none⟩,
           ⟨some userStr, some (cs "hi"), none, none, none⟩]) 100 false
        [⟨some userStr, some (cs "hi"), none, none, none⟩] ∧
    (turnSection noLoads 100 false
        [⟨some systemStr, some (cs "sys"), none, none, none⟩,
         ⟨some userStr, some (cs "hi"), none, none, none⟩]).length = 2 * (0 + 1) := by
  have h := render_starts_at_first_user noLoads 100 false
    [⟨some systemStr, some (cs "sys"), none, none, none⟩]
    ⟨some userStr, some (cs "hi"), none, none, none⟩ [] (by decide) rfl
  exact ⟨h.1, h.2.2⟩

/-- Flattened document-order list of the tool calls of all assistant turns,
exactly the calls the index builder visits. -/
def assistantCalls : List Turn → List ToolCall
  | [] => []
  | t :: ts =>
    (if t.role = some assistantStr then t.tool_calls.getD [] else []) ++ assistantCalls ts

/-- Identifier under which one tool call is indexed (`id` preferred,
`tool_call_id` tolerated, empty/missing identifiers yield none). -/
def callKey (tc : ToolCall) : Option Str :=
  let cid := if truthy tc.id then tc.id else tc.tool_call_id
  if truthy cid then some (cid.getD []) else none

/-- Value stored in the index for one tool call: function name (default
empty) and compacted arguments. -/
def callVal (jl : JLoads) (tc : ToolCall) : Str × Str :=
  let func := tc.function.getD emptyFunc
  (func.name.getD [], compactArgs 200 (func.arguments.getD []) (jl (func.arguments.getD [])))

lemma tcEntry_eq (jl : JLoads) (tc : ToolCall) :
    tcEntry jl tc = (callKey tc).map (fun k => (k, callVal jl tc)) := by
  unfold tcEntry callKey callVal
  by_cases h : truthy (if truthy tc.id then tc.id else tc.tool_call_id) = true
  · simp [h]
  · simp [h]

lemma id2call_eq (jl : JLoads) (traj : List Turn) :
    id2call jl traj = (assistantCalls traj).filterMap (tcEntry jl) := by
  induction traj with
  | nil => rfl
  | cons t ts ih =>
    by_cases h : t.role = some assistantStr
    · simp [id2call, assistantCalls, turnEntries, h, List.filterMap_append, ih]
    · simp [id2call, assistantCalls, turnEntries, h, ih]

lemma lookup_append_str {β : Type} (k : Str) (a b : List (Str × β)) :
    List.lookup k (a ++ b) = (List.lookup k a).or (List.lookup k b) := by
  induction a with
  | nil => simp [List.lookup]
  | cons p l ih =>
    cases p with
    | mk k1 v1 =>
      by_cases h : k = k1
      · subst h
        simp [List.lookup]
      · have hb : (k == k1) = false := by simp [h]
        simp [List.lookup, hb, ih]

lemma lookup_reverse_getLast {β : Type} (k : Str) (l : List (Str × β)) :
    List.lookup k l.reverse =
      ((l.filter (fun p => decide (p.1 = k))).getLast?).map Prod.snd := by
  induction l with
  | nil => rfl
  | cons p l ih =>
    cases p with
    | mk k1 v1 =>
      rw [List.reverse_cons, lookup_append_str, ih]
      by_cases h : k1 = k
      · subst h
        cases hfl : l.filter (fun p => decide (p.1 = k1)) with
        | nil => simp [List.lookup, List.filter_cons, hfl]
        | cons q qs =>
          cases hlast : (q :: qs).getLast? with
          | none => simp at hlast
          | some x => simp [List.lookup, List.filter_cons, hfl, hlast]
      · have hb : (k == k1) = false := by
          simp
          exact fun he => absurd he.symm h
        simp [List.lookup, List.filter_cons, h, hb]

lemma filter_filterMap_entries (jl : JLoads) (l : List ToolCall) (k : Str) :
    (l.filterMap (tcEntry jl)).filter (fun p => decide (p.1 = k)) =
      (l.filter (fun tc => decide (callKey tc = some k))).map (fun tc => (k, callVal jl tc)) := by
  induction l with
  | nil => rfl
  | cons tc l ih =>
    cases hk : callKey tc with
    | none => simp [List.filterMap_cons, tcEntry_eq, hk, List.filter_cons, ih]
    | some k1 =>
      by_cases h : k1 = k
      · subst h
        simp [List.filterMap_cons, tcEntry_eq, hk, List.filter_cons, ih]
      · simp [List.filterMap_cons, tcEntry_eq, hk, List.filter_cons, h, ih]

/-- Claim C4: the CallIndex maps each identifier to the (function name,
compacted arguments) pair of the last document-order tool call of an
assistant turn carrying that identifier — a later duplicate overwrites an
earlier one — and tool calls lacking a (truthy) identifier contribute no
entry; the lookup is fully determined by this last-write-wins rule. -/
theorem index_last_write_wins (jl : JLoads) (traj : List Turn) (k : Str) :
    lookupCall (id2call jl traj) k =
      (((assistantCalls traj).filter (fun tc => decide (callKey tc = some k))).getLast?).map
        (callVal jl) ∧
    ∀ tc : ToolCall, callKey tc = none → tcEntry jl tc = none := by
  constructor
  · rw [lookupCall, id2call_eq, lookup_reverse_getLast, filter_filterMap_entries,
      List.getLast?_map]
    simp only [Option.map_map]
    cases List.find? (fun tc => decide (callKey tc = some k)) (assistantCalls traj).reverse with
    | none => rfl
    | some tc => rfl
  · intro tc h
    rw [tcEntry_eq, h]
    rfl

/-- Trajectory with two assistant turns whose tool calls share the
identifier `c1`: the index must keep the second. -/
def w4Traj : List Turn :=
  [⟨some assistantStr, none, none, none, some [⟨some (cs "c1"), none, some ⟨some (cs "first"), none⟩⟩]⟩,
   ⟨some assistantStr, none, none, none, some [⟨some (cs "c1"), none, some ⟨some (cs "second"), none⟩⟩]⟩]

/-- Witness for claim C4: the duplicate identifier resolves to the later
call (`second`), and an identifier-less tool call produces no entry. -/
theorem index_last_write_wins_witness :
    lookupCall (id2call noLoads w4Traj) (cs "c1") = some (cs "second", []) ∧
    tcEntry noLoads ⟨none, none, none⟩ = none := by
  have h := index_last_write_wins noLoads w4Traj (cs "c1")
  refine ⟨?_, h.2 ⟨none, none, none⟩ (by decide)⟩
  rw [h.1]
  decide

lemma dropWhile_eq_nil_of_all {α : Type} (p : α → Bool) :
    ∀ l : List α, (∀ c ∈ l, p c = true) → l.dropWhile p = [] := by
  intro l
  induction l with
  | nil => intro _; rfl
  | cons a l ih =>
    intro h
    have ha := h a (List.mem_cons_self a l)
    rw [List.dropWhile_cons, if_pos (by simp [ha])]
    exact ih (fun c hc => h c (List.mem_cons_of_mem a hc))

lemma stripChars_eq_nil_of_all (s : Str) (h : ∀ c ∈ s, pyws c = true) : stripChars s = [] := by
  unfold stripChars
  rw [dropWhile_eq_nil_of_all pyws s h]
  rfl

lemma mem_dropWhile_of_not {α : Type} (p : α → Bool) :
    ∀ (l : List α) (c : α), c ∈ l → p c = false → c ∈ l.dropWhile p := by
  intro l
  induction l with
  | nil => intro c hm; exact absurd hm (by simp)
  | cons a l ih =>
    intro c hm hc
    rw [List.dropWhile_cons]
    by_cases ha : p a = true
    · rw [if_pos (by simp [ha])]
      rcases List.mem_cons.mp hm with he | ht
      · subst he
        rw [hc] at ha
        cases ha
      · exact ih c ht hc
    · rw [if_neg (by simpa using ha)]
      exact hm

lemma stripChars_ne_nil_of_mem (s : Str) (c : Char) (hm : c ∈ s) (hc : pyws c = false) :
    stripChars s ≠ [] := by
  unfold stripChars
  have h1 : c ∈ s.dropWhile pyws := mem_dropWhile_of_not pyws s c hm hc
  have h2 : c ∈ (s.dropWhile pyws).reverse := List.mem_reverse.mpr h1
  have h3 : c ∈ (s.dropWhile pyws).reverse.dropWhile pyws := mem_dropWhile_of_not pyws _ c h2 hc
  intro he
  have h4 := List.mem_reverse.mpr h3
  rw [he] at h4
  cases h4

lemma splitOnNL_ne_nil (s : Str) : splitOnNL s ≠ [] := by
  cases s with
  | nil => simp [splitOnNL]
  | cons c rest =>
    by_cases h : c = '\n'
    · simp [splitOnNL, h]
    · simp only [splitOnNL, if_neg h]
      cases splitOnNL rest with
      | nil => simp
      | cons a b => simp

lemma mem_splitOnNL_any {p : Char → Bool} (hp : p '\n' = false) :
    ∀ s : Str, s.any p = true → ∃ line ∈ splitOnNL s, line.any p = true := by
  intro s
  induction s with
  | nil => simp
  | cons c rest ih =>
    intro hs
    by_cases hc : c = '\n'
    · subst hc
      have hrest : rest.any p = true := by simpa [List.any_cons, hp] using hs
      obtain ⟨line, hm, ha⟩ := ih hrest
      exact ⟨line, by simp [splitOnNL, hm], ha⟩
    · obtain ⟨h1, t1, hsp⟩ : ∃ h1 t1, splitOnNL rest = h1 :: t1 := by
        cases e : splitOnNL rest with
        | nil => exact absurd e (splitOnNL_ne_nil rest)
        | cons a b => exact ⟨a, b, rfl⟩
      have hsplit : splitOnNL (c :: rest) = (c :: h1) :: t1 := by
        simp [splitOnNL, hc, hsp]
      have hs' : p c = true ∨ rest.any p = true := by simpa using hs
      rcases hs' with hpc | hrest
      · exact ⟨c :: h1, by simp [hsplit], by simp [List.any_cons, hpc]⟩
      · obtain ⟨line, hm, ha⟩ := ih hrest
        rw [hsp] at hm
        rcases List.mem_cons.mp hm with he | ht
        · refine ⟨c :: h1, by simp [hsplit], ?_⟩
          subst he
          simp [List.any_cons, ha]
        · exact ⟨line, by rw [hsplit]; exact List.mem_cons_of_mem _ ht, ha⟩

lemma splitOnNL_cons_ne_single_nil (d : Char) (rest : Str) : splitOnNL (d :: rest) ≠ [[]] := by
  by_cases h : d = '\n'
  · simp only [splitOnNL, if_pos h]
    intro he
    have : splitOnNL rest = [] := by
      injection he with h1 h2
    exact splitOnNL_ne_nil rest this
  · simp only [splitOnNL, if_neg h]
    cases splitOnNL rest with
    | nil => simp
    | cons a b =>
      intro he
      injection he with h1 h2
      cases h1

lemma splitOnNL_cons (c : Char) (rest : Str) :
    splitOnNL (c :: rest) =
      if c = '\n' then [] :: splitOnNL rest
      else
        match splitOnNL rest with
        | [] => [[c]]
        | h :: t => (c :: h) :: t := rfl

lemma getLast?_splitOnNL : ∀ s : Str, s.getLast? = some '\n' → (splitOnNL s).getLast? = some [] := by
  intro s
  induction s with
  | nil => intro h; cases h
  | cons c rest ih =>
    intro h
    cases rest with
    | nil =>
      have hc : c = '\n' := by simpa using h
      subst hc
      simp [splitOnNL]
    | cons d rest' =>
      have hlast : (d :: rest').getLast? = some '\n' := by
        rwa [List.getLast?_cons_cons] at h
      have ihh := ih hlast
      obtain ⟨h1, t1, hsp⟩ : ∃ h1 t1, splitOnNL (d :: rest') = h1 :: t1 := by
        cases e : splitOnNL (d :: rest') with
        | nil => exact absurd e (splitOnNL_ne_nil _)
        | cons a b => exact ⟨a, b, rfl⟩
      rw [hsp] at ihh
      rw [splitOnNL_cons, hsp]
      by_cases hc : c = '\n'
      · rw [if_pos hc]
        rw [List.getLast?_cons_cons]
        exact ihh
      · rw [if_neg hc]
        cases t1 with
        | nil =>
          have hh1 : h1 = [] := by simpa using ihh
          rw [hh1] at hsp
          exact absurd hsp (splitOnNL_cons_ne_single_nil d rest')
        | cons q qs =>
          show ((c :: h1) :: q :: qs).getLast? = some []
          rw [List.getLast?_cons_cons]
          rw [List.getLast?_cons_cons] at ihh
          exact ihh

lemma any_splitLines {p : Char → Bool} (hp : p '\n' = false) (s : Str) (hs : s.any p = true) :
    ∃ line ∈ splitLines s, line.any p = true := by
  obtain ⟨line, hm, ha⟩ := mem_splitOnNL_any hp s hs
  have hse : s.isEmpty = false := by
    cases s with
    | nil => simp at hs
    | cons a l => rfl
  unfold splitLines
  rw [hse]
  simp only [Bool.false_eq_true, if_false]
  by_cases hl : s.getLast? = some '\n'
  · rw [if_pos hl]
    have hlastnil := getLast?_splitOnNL s hl
    have hne : line ≠ [] := by
      intro h
      rw [h] at ha
      simp at ha
    have hnn := splitOnNL_ne_nil s
    have hdecomp := List.dropLast_append_getLast hnn
    have hgl : (splitOnNL s).getLast hnn = [] := by
      have := List.getLast?_eq_getLast (splitOnNL s) hnn
      rw [this] at hlastnil
      injection hlastnil with h1
    rw [← hdecomp] at hm
    rcases List.mem_append.mp hm with hdl | hsing
    · exact ⟨line, hdl, ha⟩
    · rw [hgl] at hsing
      rcases List.mem_singleton.mp hsing with he
      exact absurd he hne
  · rw [if_neg hl]
    exact ⟨line, hm, ha⟩

lemma any_joinSep_of_mem {p : Char → Bool} (sep : Str) :
    ∀ (parts : List Str) (line : Str), line ∈ parts → line.any p = true →
      (joinSep sep parts).any p = true := by
  intro parts
  induction parts with
  | nil => intro line hm; exact absurd hm (by simp)
  | cons x xs ih =>
    intro line hm ha
    cases xs with
    | nil =>
      have he := List.mem_singleton.mp hm
      rw [← he]
      exact ha
    | cons y ys =>
      have hj : joinSep sep (x :: y :: ys) = x ++ sep ++ joinSep sep (y :: ys) := rfl
      rw [hj]
      simp only [List.any_append]
      rcases List.mem_cons.mp hm with he | ht
      · rw [← he]
        simp [ha]
      · have := ih line ht ha
        simp [this]

lemma any_indentTwo {p : Char → Bool} (hp : p '\n' = false) (s : Str) (hs : s.any p = true) :
    (indentTwo s).any p = true := by
  obtain ⟨line, hm, ha⟩ := any_splitLines hp s hs
  unfold indentTwo
  refine any_joinSep_of_mem (cs "\n") _
    ((fun line => if (stripChars line).isEmpty then line else ' ' :: ' ' :: line) line)
    (List.mem_map_of_mem _ hm) ?_
  by_cases hb : (stripChars line).isEmpty = true
  · simpa [hb] using ha
  · simp only [hb, Bool.false_eq_true, if_false, ite_false, List.any_cons]
    simp [ha]

/-- Claim C9: the printed body of a rendered turn is never blank — when the
wrapped body is empty or whitespace-only the dimmed `(no content)`
placeholder is printed (two-space indented) in its place, and otherwise the
wrapped, two-space-indented body itself is printed. -/
theorem body_never_blank (color : Bool) (width : Int) (msg : Str) :
    stripChars (bodyBlock color width msg) ≠ [] ∧
    ((stripChars (wrapText width msg)).isEmpty = true →
      bodyBlock color width msg = indentTwo (pcolor (cs "(no content)") "dim" color)) ∧
    ((stripChars (wrapText width msg)).isEmpty = false →
      bodyBlock color width msg = indentTwo (wrapText width msg)) := by
  refine ⟨?_, ?_, ?_⟩
  · by_cases hb : (stripChars (wrapText width msg)).isEmpty = true
    · have hbody : bodyBlock color width msg =
          indentTwo (pcolor (cs "(no content)") "dim" color) := by
        simp only [bodyBlock]
        rw [if_pos hb]
      rw [hbody]
      cases color
      · decide
      · decide
    · have hbody : bodyBlock color width msg = indentTwo (wrapText width msg) := by
        simp only [bodyBlock]
        rw [if_neg hb]
      rw [hbody]
      have hb2 : stripChars (wrapText width msg) ≠ [] := by
        simpa [List.isEmpty_iff] using hb
      have hex : ∃ c ∈ wrapText width msg, pyws c = false := by
        by_contra hno
        push_neg at hno
        refine hb2 (stripChars_eq_nil_of_all _ (fun c hc => ?_))
        have hnc := hno c hc
        cases hpc : pyws c
        · exact absurd hpc hnc
        · rfl
      obtain ⟨c, hc, hcf⟩ := hex
      have hany : (wrapText width msg).any (fun c => !pyws c) = true :=
        List.any_eq_true.mpr ⟨c, hc, by simp [hcf]⟩
      have hind := any_indentTwo (p := fun c => !pyws c) (by decide) _ hany
      obtain ⟨d, hd, hdf⟩ := List.any_eq_true.mp hind
      exact stripChars_ne_nil_of_mem _ d hd (by simpa using hdf)
  · intro h
    simp only [bodyBlock]
    rw [if_pos h]
  · intro h
    simp only [bodyBlock]
    rw [if_neg (by simp [h])]

/-- Witness for claim C9: a non-blank body is indented verbatim, an empty
body is replaced by the indented placeholder, and even then the printed
block is non-blank. -/
theorem body_never_blank_witness :
    bodyBlock false 100 (cs "hi") = indentTwo (wrapText 100 (cs "hi")) ∧
    bodyBlock false 100 [] = indentTwo (pcolor (cs "(no content)") "dim" false) ∧
    stripChars (bodyBlock false 100 []) ≠ [] := by
  have h1 := body_never_blank false 100 (cs "hi")
  have h2 := body_never_blank false 100 []
  exact ⟨h1.2.2 (by decide), h2.2.1 (by decide), h2.1⟩

lemma orb_false_left {a b : Bool} (h : (a || b) = false) : a = false := by
  cases a
  · rfl
  · simp at h

lemma orb_false_right {a b : Bool} (h : (a || b) = false) : b = false := by
  cases b
  · rfl
  · simp at h

lemma splitCS_cons2 (c d : Char) (rest : Str) :
    splitCS (c :: d :: rest) =
      if c = ',' ∧ d = ' ' then [] :: splitCS rest
      else
        match splitCS (d :: rest) with
        | [] => [[c]]
        | h :: t => (c :: h) :: t := rfl

lemma hasCS_cons2 (c d : Char) (rest : Str) :
    hasCS (c :: d :: rest) = ((c == ',' && d == ' ') || hasCS (d :: rest)) := rfl

lemma cond_of_andb_false {c d : Char} (h : (c == ',' && d == ' ') = false) :
    ¬(c = ',' ∧ d = ' ') := by
  intro hp
  rcases hp with ⟨hc, hd⟩
  subst hc
  subst hd
  simp at h

lemma splitCS_single : ∀ s : Str, hasCS s = false → splitCS s = [s] := by
  intro s
  induction s with
  | nil => intro _; rfl
  | cons c s' ih =>
    intro h
    cases s' with
    | nil => rfl
    | cons d s'' =>
      have h1 := orb_false_left (hasCS_cons2 c d s'' ▸ h)
      have h2 := orb_false_right (hasCS_cons2 c d s'' ▸ h)
      rw [splitCS_cons2, if_neg (cond_of_andb_false h1), ih h2]

lemma splitCS_append_sep : ∀ (p s : Str), hasCS p = false →
    splitCS (p ++ ',' :: ' ' :: s) = p :: splitCS s := by
  intro p
  induction p with
  | nil =>
    intro s _
    show splitCS (',' :: ' ' :: s) = [] :: splitCS s
    rw [splitCS_cons2, if_pos ⟨rfl, rfl⟩]
  | cons c p' ih =>
    intro s h
    cases p' with
    | nil =>
      show splitCS (c :: ',' :: ' ' :: s) = [c] :: splitCS s
      rw [splitCS_cons2]
      have hcond : ¬(c = ',' ∧ (',' : Char) = ' ') := by
        intro hp
        exact absurd hp.2 (by decide)
      rw [if_neg hcond]
      rw [show splitCS (',' :: ' ' :: s) = [] :: splitCS s from by
        rw [splitCS_cons2, if_pos ⟨rfl, rfl⟩]]
    | cons d p'' =>
      rw [show ((c :: d :: p'') ++ ',' :: ' ' :: s) = c :: d :: (p'' ++ ',' :: ' ' :: s) from rfl]
      rw [splitCS_cons2]
      have h1 := orb_false_left (hasCS_cons2 c d p'' ▸ h)
      have h2 := orb_false_right (hasCS_cons2 c d p'' ▸ h)
      rw [if_neg (cond_of_andb_false h1)]
      have hx : splitCS (d :: (p'' ++ ',' :: ' ' :: s)) = (d :: p'') :: splitCS s := ih s h2
      rw [hx]

lemma splitCS_join : ∀ parts : List Str, parts ≠ [] → (∀ p ∈ parts, hasCS p = false) →
    splitCS (joinSep (cs ", ") parts) = parts := by
  intro parts
  induction parts with
  | nil => intro h; exact absurd rfl h
  | cons x xs ih =>
    intro _ h
    cases xs with
    | nil => exact splitCS_single x (h x (by simp))
    | cons y ys =>
      have hj : joinSep (cs ", ") (x :: y :: ys) =
          x ++ (',' :: ' ' :: joinSep (cs ", ") (y :: ys)) := by
        show x ++ cs ", " ++ joinSep (cs ", ") (y :: ys) = _
        rw [List.append_assoc]
        rfl
      rw [hj]
      rw [splitCS_append_sep x _ (h x (by simp))]
      rw [ih (by simp) (fun p hp => h p (by simp [hp]))]

lemma hasEq_cons (c : Char) (k : Str) : hasEq (c :: k) = ((c == '=') || hasEq k) := by
  simp [hasEq, List.any_cons]

lemma takeWhile_key : ∀ (k tv : Str), hasEq k = false →
    (k ++ '=' :: tv).takeWhile (fun c => c != '=') = k := by
  intro k
  induction k with
  | nil =>
    intro tv _
    show (('=' :: tv).takeWhile (fun c => c != '=')) = []
    simp [List.takeWhile_cons]
  | cons c k' ih =>
    intro tv h
    have hc := orb_false_left (hasEq_cons c k' ▸ h)
    have h1 := orb_false_right (hasEq_cons c k' ▸ h)
    rw [show ((c :: k') ++ '=' :: tv) = c :: (k' ++ '=' :: tv) from rfl]
    rw [List.takeWhile_cons]
    rw [if_pos (by simp [bne, hc])]
    rw [ih tv h1]

lemma hasCS_eq_cons : ∀ tv : Str, hasCS tv = false → hasCS ('=' :: tv) = false := by
  intro tv h
  cases tv with
  | nil => rfl
  | cons d tv' =>
    rw [hasCS_cons2]
    have he : (('=' : Char) == ',') = false := by decide
    simp [he, h]

lemma hasCS_key_part : ∀ (k tv : Str), hasCS k = false → hasCS tv = false →
    hasCS (k ++ '=' :: tv) = false := by
  intro k
  induction k with
  | nil => intro tv _ htv; exact hasCS_eq_cons tv htv
  | cons c k' ih =>
    intro tv h htv
    cases k' with
    | nil =>
      rw [show (([c] : Str) ++ '=' :: tv) = c :: '=' :: tv from rfl]
      rw [hasCS_cons2]
      have he : (c == ',' && (('=' : Char) == ' ')) = false := by
        have h0 : (('=' : Char) == ' ') = false := by decide
        simp [h0]
      rw [he, hasCS_eq_cons tv htv]
      rfl
    | cons d k'' =>
      rw [show ((c :: d :: k'') ++ '=' :: tv) = c :: d :: (k'' ++ '=' :: tv) from rfl]
      rw [hasCS_cons2]
      have h1 := orb_false_left (hasCS_cons2 c d k'' ▸ h)
      have h2 := orb_false_right (hasCS_cons2 c d k'' ▸ h)
      have hx : hasCS (d :: (k'' ++ '=' :: tv)) = false := ih tv h2 htv
      rw [h1, hx]
      rfl

/-- Claim C3 (counterexample): the round-trip fails in general.  The
argument string decoding to the mapping with single key `a` and value
`", b=1"` compacts to a string whose `key=value` re-parse yields the keys
`a` and `b` — not the original single key — because the value's JSON
encoding itself contains the `", "` joiner and an `=`. -/
theorem compact_roundtrip_counterexample :
    reParseKeys (compactArgs 200 (cs "\x7b\x22a\x22: \x22, b=1\x22\x7d")
        (some (JVal.obj [(cs "a", JVal.str (cs ", b=1"))]))) ≠
      ([(cs "a", JVal.str (cs ", b=1"))].map Prod.fst) := by decide

/-- Claim C3 (amended): for every non-empty parsed JSON mapping whose keys
contain no `=` and no `", "` occurrence, whose truncated value encodings
contain no `", "` occurrence, and whose compacted joined form does not
exceed the overall max length (so no overall truncation occurs),
compacting and re-parsing the `key=value` segments (per-value truncation
markers sit inside the value parts and are ignored) yields exactly the
original mapping's keys in their original order. -/
theorem compact_roundtrip_keys (kvs : List (Str × JVal)) (hne : kvs ≠ [])
    (hk : ∀ kv ∈ kvs, hasEq kv.1 = false ∧ hasCS kv.1 = false ∧ hasCS (trunc kv.2) = false)
    (hlen : (joinSep (cs ", ") (kvs.map (fun kv => kv.1 ++ ('=' :: trunc kv.2)))).length ≤ 200) :
    reParseKeys (compactParsed 200 (JVal.obj kvs)) = kvs.map Prod.fst := by
  have hcap : compactParsed 200 (JVal.obj kvs) =
      joinSep (cs ", ") (kvs.map (fun kv => kv.1 ++ ('=' :: trunc kv.2))) := by
    simp only [compactParsed, capLen]
    rw [if_pos hlen]
  have hparts : ∀ p ∈ kvs.map (fun kv => kv.1 ++ ('=' :: trunc kv.2)), hasCS p = false := by
    intro p hp
    obtain ⟨kv, hkv, hpe⟩ := List.mem_map.mp hp
    rw [← hpe]
    exact hasCS_key_part kv.1 (trunc kv.2) (hk kv hkv).2.1 (hk kv hkv).2.2
  have hnem : kvs.map (fun kv => kv.1 ++ ('=' :: trunc kv.2)) ≠ [] := by
    cases kvs with
    | nil => exact absurd rfl hne
    | cons a l => simp
  unfold reParseKeys
  rw [hcap, splitCS_join _ hnem hparts, List.map_map]
  refine List.map_congr_left (fun kv hkv => ?_)
  exact takeWhile_key kv.1 (trunc kv.2) (hk kv hkv).1

/-- Witness for the amended claim C3: the two-key mapping with values `1`
and `"x"` compacts to `a=1, b="x"` and re-parses to exactly the keys
`a`, `b` in order. -/
theorem compact_roundtrip_keys_witness :
    reParseKeys (compactParsed 200 (JVal.obj [(cs "a", JVal.num 1), (cs "b", JVal.str (cs "x"))])) =
      ([(cs "a", JVal.num 1), (cs "b", JVal.str (cs "x"))].map Prod.fst) :=
  compact_roundtrip_keys [(cs "a", JVal.num 1), (cs "b", JVal.str (cs "x"))]
    (List.cons_ne_nil _ _) (by decide) (by decide)
